import Mathlib

/-!
# Verification of the BCB/SGS data pipeline (`src/main.py`)

Shallow embedding of the fetch / retry / assemble / write logic of
`src/main.py`.  Dates are encoded as natural numbers `y*10000 + m*100 + d`
(numeric order coincides with calendar order, and with the lexicographic
order of the zero-padded `"%Y-%m-%d"` strings the assembler sorts by).
Machine floats of the source are modelled by `ℚ` extended with the
distinguished values `+inf`, `-inf` and `NaN`/`None` (the `CellVal` type);
none of the claims depend on rounding.
-/

/-- A decimal number `num / 10 ^ exp`, the exact value of a parsed decimal
literal.  Kept unnormalized so that every pipeline computation is plain
integer arithmetic (the pipeline never does arithmetic on values, only
carries them through). -/
structure Dec10 where
  num : Int
  exp : Nat
deriving DecidableEq, Repr

/-- The rational number a `Dec10` denotes. -/
def Dec10.toRat (x : Dec10) : ℚ :=
  (x.num : ℚ) / 10 ^ x.exp

/-- A numeric cell as produced by `pd.to_numeric(errors="coerce")`:
either a finite number, a signed infinity, or null (`NaN`). -/
inductive CellVal where
  | num (q : Dec10)
  | pinf
  | ninf
  | null
deriving DecidableEq, Repr

/-- Value of a list of decimal digit characters, most significant first. -/
def digitsVal (cs : List Char) : Nat :=
  cs.foldl (fun acc c => acc * 10 + (c.toNat - 48)) 0

/-- Digit-string to `Nat`: succeeds exactly on non-empty all-digit strings. -/
def digToNat (cs : List Char) : Option Nat :=
  if cs.isEmpty then none
  else if cs.all Char.isDigit then some (digitsVal cs) else none

/-- Split a character list on a separator character (like `str.split`):
always returns one more piece than there are separators. -/
def splitOnChar (sep : Char) : List Char → List (List Char)
  | [] => [[]]
  | c :: rest =>
    match splitOnChar sep rest with
    | [] => [[]]
    | cur :: rs => if c = sep then [] :: cur :: rs else (c :: cur) :: rs

/-- Model of `df["valor"].astype(str).str.replace(",", ".", regex=False)`
(main.py line 99): every comma becomes a dot. -/
def replaceComma (cs : List Char) : List Char :=
  cs.map (fun c => if c = ',' then '.' else c)

/-- Lines 96-101 of main.py: comma→dot, then the literal string `"None"`
(what `astype(str)` makes of a JSON null) is replaced by the empty string. -/
def cleanChars (cs : List Char) : List Char :=
  let cs' := replaceComma cs
  if cs' = "None".data then [] else cs'

/-- Unsigned decimal literal, as accepted by `pd.to_numeric` after the
comma→dot replacement: digits, optionally with one dot (either side of
which may be empty, but not both).  `"13.75"` yields `⟨1375, 2⟩`,
denoting `1375 / 10^2`. -/
def parseUnsigned (cs : List Char) : Option Dec10 :=
  match splitOnChar '.' cs with
  | [a] => (digToNat a).map (fun n => ⟨(n : Int), 0⟩)
  | [a, b] =>
    if a.isEmpty then (digToNat b).map (fun n => ⟨(n : Int), b.length⟩)
    else if b.isEmpty then (digToNat a).map (fun n => ⟨(n : Int), 0⟩)
    else
      match digToNat a, digToNat b with
      | some x, some y => some ⟨(x : Int) * 10 ^ b.length + (y : Int), b.length⟩
      | _, _ => none
  | _ => none

/-- Optionally signed decimal literal. -/
def parseSigned (cs : List Char) : Option Dec10 :=
  match cs with
  | [] => none
  | c :: rest =>
    if c = '-' then (parseUnsigned rest).map (fun x => ⟨-x.num, x.exp⟩)
    else if c = '+' then parseUnsigned rest
    else parseUnsigned (c :: rest)

/-- Model of `pd.to_numeric(errors="coerce")` (main.py line 102), restricted to the
decimal literals and infinities relevant here: unparseable input coerces
to null rather than raising. -/
def toNumeric (cs : List Char) : CellVal :=
  if cs = "inf".data then CellVal.pinf
  else if cs = "-inf".data then CellVal.ninf
  else
    match parseSigned cs with
    | some q => CellVal.num q
    | none => CellVal.null

/-- The whole value column transform of main.py lines 96-102. -/
def valueOfValor (s : String) : CellVal :=
  toNumeric (cleanChars s.data)

/-- Date code `y*10000 + m*100 + d`. -/
def mkDate (y m d : Nat) : Nat :=
  y * 10000 + m * 100 + d

/-- Model of `pd.to_datetime(df["data"], dayfirst=True, errors="coerce")`
(main.py line 95) on the day-first `dd/mm/yyyy` strings the SGS API
returns: a failed parse coerces to null (the row is dropped later). -/
def parseDateBR (s : String) : Option Nat :=
  match splitOnChar '/' s.data with
  | [d, m, y] =>
    match digToNat d, digToNat m, digToNat y with
    | some dd, some mm, some yy =>
      if 1 ≤ dd ∧ dd ≤ 31 ∧ 1 ≤ mm ∧ mm ≤ 12 then some (mkDate yy mm dd)
      else none
    | _, _, _ => none
  | _ => none

/-- One element of the JSON payload of the SGS API: a record with string
fields `data` (a date) and `valor` (a locale-formatted number; a JSON
null appears as the string `"None"` after `astype(str)`). -/
structure RawRow where
  data : String
  valor : String
deriving DecidableEq, Repr

/-- An observation of the fetched table: date code and numeric value. -/
abbrev Obs := Nat × CellVal

/-- Parsing of one payload row (main.py lines 95-104): the row survives
`dropna(subset=["date", "value"])` iff its date parses and its value is
not null. -/
def parseRow (r : RawRow) : Option Obs :=
  match parseDateBR r.data with
  | none => none
  | some d =>
    match valueOfValor r.valor with
    | CellVal.null => none
    | v => some (d, v)

/-- The parsed rows of a payload, in payload order, bad rows dropped. -/
def parsedObs (pay : List RawRow) : List Obs :=
  pay.filterMap parseRow

/-- Order used by `df.sort_values("date")`: by date code. -/
def obsLe (a b : Obs) : Prop :=
  a.1 ≤ b.1

instance : DecidableRel obsLe := fun a b => Nat.decLe a.1 b.1

instance : IsTotal Obs obsLe := ⟨fun a b => Nat.le_total a.1 b.1⟩

instance : IsTrans Obs obsLe := ⟨fun _ _ _ => Nat.le_trans⟩

/-- The normalization block of `fetch_sgs` (main.py lines 94-105): parse
dates and values, drop rows whose date or value is null, sort ascending
by date (`sort_values` is stable; duplicate dates are preserved). -/
def processBody (pay : List RawRow) : List Obs :=
  List.insertionSort obsLe (parsedObs pay)

/-- Shape of one HTTP response body as `fetch_sgs` inspects it. -/
inductive BodyKind where
  /-- Case where `(r.text or "").strip()` is empty. -/
  | empty
  /-- Non-empty, and `"text/html" in ctype or body.startswith("<")`. -/
  | html
  /-- Non-empty, not HTML-like, but `r.json()` raises. -/
  | notJson
  /-- Non-empty, parses as a JSON list of records. -/
  | json (rows : List RawRow)
deriving DecidableEq, Repr

/-- Outcome of one `requests.get` call: either the client raised
(timeout, connection error, ...) or a response with a status code and a
body arrived. -/
inductive Attempt where
  | exn
  | resp (status : Nat) (body : BodyKind)
deriving DecidableEq, Repr

/-- How one loop iteration of `fetch_sgs` disposes of its response. -/
inductive StepKind where
  /-- Line 105: return the normalized table immediately. -/
  | success (rows : List Obs)
  /-- Lines 108-115: transient status or empty body — log, sleep
  (unconditionally), `continue`. -/
  | transient
  /-- Lines 120-126: an exception was caught (raised HTML/non-JSON/empty
  JSON handling, a client exception, or `raise_for_status`) — log, sleep
  only if another attempt remains, else `break`. -/
  | exnCaught
  /-- Case where `raise_for_status()` did not raise (non-200 status below 400 or
  at/above 600 with a non-empty body): the iteration falls off the end
  of the `try` block and the loop continues with no sleep. -/
  | passThrough
deriving DecidableEq, Repr

/-- Classification of a non-200 response with a non-empty body
(main.py lines 108-118). -/
def nonOkClassify (status : Nat) : StepKind :=
  if status = 429 ∨ status = 500 ∨ status = 502 ∨ status = 503 ∨ status = 504 then
    StepKind.transient
  else if 400 ≤ status ∧ status < 600 then StepKind.exnCaught
  else StepKind.passThrough

/-- Classification of one attempt outcome, following main.py lines 66-118.
A 200 with an HTML-like / non-JSON / empty-JSON body raises and is caught
by the blanket `except` (lines 76-92, 120); an empty body is transient
regardless of status (line 108); `raise_for_status` raises exactly for
4xx/5xx, and that exception is caught by the same blanket `except`. -/
def classify (a : Attempt) : StepKind :=
  match a with
  | Attempt.exn => StepKind.exnCaught
  | Attempt.resp status body =>
    match body with
    | BodyKind.empty => StepKind.transient
    | BodyKind.html => if status = 200 then StepKind.exnCaught else nonOkClassify status
    | BodyKind.notJson => if status = 200 then StepKind.exnCaught else nonOkClassify status
    | BodyKind.json rows =>
      if status = 200 then
        if rows.isEmpty then StepKind.exnCaught
        else StepKind.success (processBody rows)
      else nonOkClassify status

/-- Model of `_sleep_backoff` (main.py lines 41-50): seconds slept for a 1-indexed
attempt number; `0.05` is `5/100`. -/
def sleepBackoffWait (attempt : Nat) : ℚ :=
  let wait : ℚ := min (2 ^ (attempt - 1)) 20
  wait + (attempt : ℚ) * (5 / 100)

/-- Observable result of a whole `fetch_sgs` call:
the returned table (`rows` and its `cols` header), how many HTTP requests
were issued, the 1-indexed attempt numbers after which `_sleep_backoff`
ran (in order), whether a 200-with-data success occurred, and whether the
final line-129 `[ERROR]` log (exhaustion) was printed.  `fetch_sgs`
itself never lets an exception escape: every path returns a table. -/
structure FetchOut where
  rows : List Obs
  cols : List String
  nreq : Nat
  sleeps : List Nat
  success : Bool
  loggedFinal : Bool
deriving DecidableEq, Repr

/-- The retry loop of `fetch_sgs` (main.py lines 64-130).  `n` is the
current 1-indexed attempt number and `fuel` the number of attempts left;
the loop is entered with `n = 1`, `fuel = maxR`.  The `n < maxR` test is
line 123's `attempt < SGS_MAX_RETRIES`; the transient branch sleeps with
no such guard (line 114), matching the source. -/
def fetchGo (maxR : Nat) (resp : Nat → Attempt) : Nat → Nat → FetchOut
  | _, 0 => ⟨[], ["date", "value"], 0, [], false, true⟩
  | n, fuel + 1 =>
    match classify (resp n) with
    | StepKind.success rows => ⟨rows, ["date", "value"], 1, [], true, false⟩
    | StepKind.transient =>
      let r := fetchGo maxR resp (n + 1) fuel
      ⟨r.rows, r.cols, r.nreq + 1, n :: r.sleeps, r.success, r.loggedFinal⟩
    | StepKind.exnCaught =>
      if n < maxR then
        let r := fetchGo maxR resp (n + 1) fuel
        ⟨r.rows, r.cols, r.nreq + 1, n :: r.sleeps, r.success, r.loggedFinal⟩
      else ⟨[], ["date", "value"], 1, [], false, true⟩
    | StepKind.passThrough =>
      let r := fetchGo maxR resp (n + 1) fuel
      ⟨r.rows, r.cols, r.nreq + 1, r.sleeps, r.success, r.loggedFinal⟩

/-- Model of `fetch_sgs(series_id, start, end)` (main.py lines 53-130), with the
per-attempt HTTP outcomes supplied by `resp`.  `series_id`, `start` and
`finish` (the source's `end`, a Lean keyword) only parametrize the
request URL in the source; the loop never reads them. -/
def fetchSgs (maxRetries : Nat) (series_id start finish : Nat)
    (resp : Nat → Attempt) : FetchOut :=
  fetchGo maxRetries resp 1 maxRetries

/-- One entry of the `SERIES` configuration list (main.py lines 21-34). -/
structure SeriesDesc where
  series_id : Nat
  metric : String
  segment : String
  freq : String
deriving DecidableEq, Repr

/-- The `SERIES` configuration (main.py lines 21-34). -/
def SERIES : List SeriesDesc :=
  [⟨11, "selic", "Total", "D"⟩,
   ⟨20539, "saldo_credito", "Total", "M"⟩,
   ⟨20541, "saldo_credito", "PF", "M"⟩,
   ⟨20540, "saldo_credito", "PJ", "M"⟩,
   ⟨21082, "inadimplencia", "Total", "M"⟩,
   ⟨21084, "inadimplencia", "PF", "M"⟩,
   ⟨21083, "inadimplencia", "PJ", "M"⟩,
   ⟨432, "selic_meta", "Total", "M"⟩]

/-- A data row before the `ingested_at` column is added
(main.py lines 148-152). -/
structure RowCore where
  date : Nat
  metric : String
  segment : String
  series_id : Nat
  value : CellVal
  freq : String
deriving DecidableEq, Repr

/-- A full data row of the assembled dataset (after line 163). -/
structure Row extends RowCore where
  ingested_at : String
deriving DecidableEq, Repr

/-- Tagging of one fetched frame with its descriptor's metadata
(main.py lines 148-152). -/
def tagRows (s : SeriesDesc) (obs : List Obs) : List RowCore :=
  obs.map (fun o => ⟨o.1, s.metric, s.segment, s.series_id, o.2, s.freq⟩)

/-- The concatenation of all tagged frames (main.py lines 136-159):
the loop `continue`s on an empty fetch, which contributes the same zero
rows as tagging the empty list, so the model maps over all of `SERIES`. -/
def buildCore (fetched : SeriesDesc → List Obs) : List RowCore :=
  (SERIES.map (fun s => tagRows s (fetched s))).flatten

/-- The `(metric, segment, date)` sort key of line 166.  The source sorts
the date column as a zero-padded `"%Y-%m-%d"` string (line 162), whose
lexicographic order agrees with the numeric order of the date code. -/
def rowKey (r : RowCore) : String ×ₗ String ×ₗ Nat :=
  toLex (r.metric, toLex (r.segment, r.date))

/-- Row order used by `sort_values(["metric", "segment", "date"])`. -/
def rowLe (a b : Row) : Prop :=
  rowKey a.toRowCore ≤ rowKey b.toRowCore

/-- The same order on rows without the timestamp column. -/
def rowCoreLe (a b : RowCore) : Prop :=
  rowKey a ≤ rowKey b

instance : DecidableRel rowLe := fun a b =>
  inferInstanceAs (Decidable (rowKey a.toRowCore ≤ rowKey b.toRowCore))

instance : IsTotal Row rowLe := ⟨fun a b => le_total (rowKey a.toRowCore) (rowKey b.toRowCore)⟩

instance : IsTrans Row rowLe := ⟨fun _ _ _ => le_trans⟩

instance : DecidableRel rowCoreLe := fun a b =>
  inferInstanceAs (Decidable (rowKey a ≤ rowKey b))

instance : IsTotal RowCore rowCoreLe := ⟨fun a b => le_total (rowKey a) (rowKey b)⟩

instance : IsTrans RowCore rowCoreLe := ⟨fun _ _ _ => le_trans⟩

/-- Line 169: `replace([inf, -inf], None)` — a non-finite value becomes
null; line 170's `where(notnull, None)` maps `NaN` to `None`, which the
model already identifies. -/
def sanitizeVal : CellVal → CellVal
  | CellVal.pinf => CellVal.null
  | CellVal.ninf => CellVal.null
  | v => v

/-- Sanitization applied to a row (lines 169-170). -/
def sanitizeRow (r : Row) : Row :=
  { r with value := sanitizeVal r.value }

/-- The assembled dataset: column header plus data rows. -/
structure Table where
  header : List String
  rows : List Row
deriving DecidableEq, Repr

/-- The column selection of line 172. -/
def datasetCols : List String :=
  ["date", "metric", "segment", "series_id", "value", "freq", "ingested_at"]

/-- Model of `build_dataset` (main.py lines 133-172), parametrized by the fetch
results per configured series (the HTTP layer is modelled by `fetchSgs`)
and by the run's single `ingested_at` timestamp (line 163).  Steps in
source order: concatenate tagged frames, add the timestamp column, sort
by `(metric, segment, date)`, replace non-finite values by null, select
the seven output columns.  Line 165's `dropna(subset=["date"])` drops
nothing: every date in the frame was already parsed by `fetch_sgs`. -/
def build_dataset (fetched : SeriesDesc → List Obs) (ingestedAt : String) : Table :=
  let rows0 := buildCore fetched
  let rows1 := rows0.map (fun rc => Row.mk rc ingestedAt)
  let rows2 := List.insertionSort rowLe rows1
  let rows3 := rows2.map sanitizeRow
  ⟨datasetCols, rows3⟩

/-- A spreadsheet cell as sent by `ws.update` (main.py line 196): native
types are preserved (numbers as numbers, null as an empty cell), values
are not coerced to text.  The date cell holds the date code, standing
for the `"%Y-%m-%d"` string of line 162 (the two are in bijection and
order-isomorphic; no claim inspects its text). -/
inductive Cell where
  | str (s : String)
  | nat (n : Nat)
  | dec (x : Dec10)
  | null
deriving DecidableEq, Repr

/-- The value cell after `write_to_gsheet`'s own sanitization
(lines 190-192): finite numbers survive, infinities and nulls become
null cells. -/
def cellOfVal : CellVal → Cell
  | CellVal.num x => Cell.dec x
  | _ => Cell.null

/-- One data row as a list of cells (`safe_df.values.tolist()`). -/
def rowCells (r : Row) : List Cell :=
  [Cell.nat r.date, Cell.str r.metric, Cell.str r.segment,
   Cell.nat r.series_id, cellOfVal r.value, Cell.str r.freq,
   Cell.str r.ingested_at]

/-- Model of `write_to_gsheet` (main.py lines 175-196) as a sheet-state transform:
`ws.clear()` discards the previous contents `prev`, then one `ws.update`
writes the header row followed by all data rows. -/
def sheetAfterWrite (prev : List (List Cell)) (t : Table) : List (List Cell) :=
  t.header.map Cell.str :: t.rows.map rowCells

/-- Month index of a date code: months since year 0. -/
def monthIndex (d : Nat) : Nat :=
  (d / 10000) * 12 + (d / 100) % 100 - 1

/-- Date code of the first day of the month with the given index. -/
def firstOfMonth (m : Nat) : Nat :=
  (m / 12) * 10000 + (m % 12 + 1) * 100 + 1

/-- Modelled from the spec: the Calendar Normalizer of spec §4.3 is not
part of `src/main.py` (it lives in another script variant of the
repository); its period boundaries are "the start of each month spanning
from the first observation's period to the period containing the end
date". -/
def calendarBoundaries (firstObs endD : Nat) : List Nat :=
  (List.range' (monthIndex firstObs) (monthIndex endD + 1 - monthIndex firstObs)).map firstOfMonth

/-- The declarative reading of spec §4.3's forward-fill: "the most recent
observation value at or before that boundary", none when no observation
is at or before it.  `obs` is the fetcher output, sorted ascending, so
the most recent qualifying observation is the last qualifying one. -/
def mostRecentAtOrBefore {α : Type} (obs : List (Nat × α)) (b : Nat) : Option α :=
  ((obs.filter (fun o => o.1 ≤ b)).getLast?).map Prod.snd

/-- One step of the forward-fill scan: consume the observations dated at
or before boundary `b`, updating the carried value. -/
def advanceCarry {α : Type} (c : Option α) : List (Nat × α) → Nat → Option α × List (Nat × α)
  | [], _ => (c, [])
  | o :: rest, b => if o.1 ≤ b then advanceCarry (some o.2) rest b else (c, o :: rest)

/-- The forward-fill scan over the boundary list, carrying the last
known value forward. -/
def ffillGo {α : Type} (c : Option α) (obs : List (Nat × α)) : List Nat → List (Nat × Option α)
  | [] => []
  | b :: bs =>
    let p := advanceCarry c obs b
    (b, p.1) :: ffillGo p.1 p.2 bs

/-- Modelled from the spec: the Calendar Normalizer (spec §4.3, absent
from `src/main.py`), as the single-pass forward-fill of §2 "carrying the
last known value forward" over the month-start boundaries; a boundary
with no prior observation stays unresolved (`none`), never back-filled. -/
def normalizeCalendar {α : Type} (obs : List (Nat × α)) (endD : Nat) : List (Nat × Option α) :=
  match obs with
  | [] => []
  | o :: _ => ffillGo none obs (calendarBoundaries o.1 endD)

/-- Dates of a pair list are weakly ascending (the shape of the fetcher
output that the forward-fill scan relies on). -/
abbrev datesMono {α : Type} (l : List (Nat × α)) : Prop :=
  List.Pairwise (fun a b => a.1 ≤ b.1) l

/-- Generalization of `mostRecentAtOrBefore` by a carried default: the value of
the last observation at or before `b`, or the carry `c` when there is
none.  `mraC none = mostRecentAtOrBefore`. -/
def mraC {α : Type} (c : Option α) (obs : List (Nat × α)) (b : Nat) : Option α :=
  match (obs.filter (fun o => o.1 ≤ b)).getLast? with
  | some o => some o.2
  | none => c

/-- Sanitization on a row without the timestamp column. -/
def sanitizeCore (rc : RowCore) : RowCore :=
  { rc with value := sanitizeVal rc.value }

/-- Every attempt gets HTTP 404 with a non-empty JSON body: the terminal
4xx scenario of the spec. -/
def resp404 : Nat → Attempt :=
  fun _ => Attempt.resp 404 (BodyKind.json [⟨"05/01/2024", "1"⟩])

/-- Every attempt gets HTTP 503 with a non-empty non-JSON body: a
transient-status failure on every attempt. -/
def respTransient : Nat → Attempt :=
  fun _ => Attempt.resp 503 BodyKind.notJson

/-- A 200 payload whose parsed dates contain a duplicate and a date
before the requested window. -/
def payDup : List RawRow :=
  [⟨"15/01/2024", "2"⟩, ⟨"01/01/2024", "1"⟩, ⟨"15/01/2024", "3"⟩]

/-- Every attempt succeeds with the `payDup` payload. -/
def respDup : Nat → Attempt :=
  fun _ => Attempt.resp 200 (BodyKind.json payDup)

/-- A well-behaved 200 payload: distinct in-window dates. -/
def payGood : List RawRow :=
  [⟨"11/01/2024", "1"⟩, ⟨"12/01/2024", "2,5"⟩]

/-- Every attempt succeeds with the `payGood` payload. -/
def respGood : Nat → Attempt :=
  fun _ => Attempt.resp 200 (BodyKind.json payGood)

/-- A payload with one row whose value does not parse and one good row. -/
def payBadValue : List RawRow :=
  [⟨"05/01/2024", "abc"⟩, ⟨"06/01/2024", "1,5"⟩]

/-- Fetch results in which every configured series came back empty. -/
def emptyFetched : SeriesDesc → List Obs :=
  fun _ => []

/-- Some arbitrary previous sheet contents. -/
def prevSheet : List (List Cell) :=
  [[Cell.str "stale"], [Cell.nat 0]]

/-- Concrete event-based series for exercising the normalizer: a single
observation in mid-January. -/
def obsEvent : List (Nat × Nat) :=
  [(20240115, 7)]

theorem fetchGo_nreq_le (maxR : Nat) (resp : Nat → Attempt) :
    ∀ fuel n, (fetchGo maxR resp n fuel).nreq ≤ fuel := by
  intro fuel
  induction fuel with
  | zero => intro n; simp [fetchGo]
  | succ f ih =>
    intro n
    unfold fetchGo
    cases classify (resp n) with
    | success rows => simp
    | transient => simpa using Nat.succ_le_succ (ih (n + 1))
    | exnCaught =>
      by_cases hn : n < maxR
      · simpa [hn] using Nat.succ_le_succ (ih (n + 1))
      · simp [hn]
    | passThrough => simpa using Nat.succ_le_succ (ih (n + 1))

theorem fetchGo_cols (maxR : Nat) (resp : Nat → Attempt) :
    ∀ fuel n, (fetchGo maxR resp n fuel).cols = ["date", "value"] := by
  intro fuel
  induction fuel with
  | zero => intro n; rfl
  | succ f ih =>
    intro n
    unfold fetchGo
    cases classify (resp n) with
    | success rows => rfl
    | transient => simpa using ih (n + 1)
    | exnCaught =>
      by_cases hn : n < maxR
      · simpa [hn] using ih (n + 1)
      · simp [hn]
    | passThrough => simpa using ih (n + 1)

theorem fetchGo_fail (maxR : Nat) (resp : Nat → Attempt) :
    ∀ fuel n, (fetchGo maxR resp n fuel).success = false →
      (fetchGo maxR resp n fuel).rows = [] ∧ (fetchGo maxR resp n fuel).loggedFinal = true := by
  intro fuel
  induction fuel with
  | zero => intro n _; exact ⟨rfl, rfl⟩
  | succ f ih =>
    intro n h
    unfold fetchGo at h ⊢
    cases hc : classify (resp n) with
    | success rows => rw [hc] at h; simp at h
    | transient =>
      rw [hc] at h
      simpa using ih (n + 1) (by simpa using h)
    | exnCaught =>
      rw [hc] at h
      by_cases hn : n < maxR
      · simp only [if_pos hn] at h ⊢
        simpa using ih (n + 1) (by simpa using h)
      · simp [hn]
    | passThrough =>
      rw [hc] at h
      simpa using ih (n + 1) (by simpa using h)

theorem fetchGo_nreq_pos (maxR : Nat) (resp : Nat → Attempt) (f n : Nat) :
    1 ≤ (fetchGo maxR resp n (f + 1)).nreq := by
  unfold fetchGo
  cases classify (resp n) with
  | success rows => simp
  | transient => simp
  | exnCaught =>
    by_cases hn : n < maxR
    · simp [hn]
    · simp [hn]
  | passThrough => simp

theorem fetchGo_sleeps_spec (maxR : Nat) (resp : Nat → Attempt) :
    ∀ fuel n, n + fuel = maxR + 1 →
      ∀ m ∈ (fetchGo maxR resp n fuel).sleeps,
        m ≤ maxR ∧
        (m < maxR → m + 2 ≤ n + (fetchGo maxR resp n fuel).nreq) ∧
        (m = maxR → classify (resp m) = StepKind.transient) := by
  intro fuel
  induction fuel with
  | zero => intro n _ m hm; simp [fetchGo] at hm
  | succ f ih =>
    intro n hinv m hm
    have hn_le : n ≤ maxR := by omega
    unfold fetchGo at hm ⊢
    cases hc : classify (resp n) with
    | success rows => rw [hc] at hm; simp at hm
    | transient =>
      rw [hc] at hm
      simp only [List.mem_cons] at hm
      cases hm with
      | inl hEq =>
        subst hEq
        refine ⟨hn_le, ?_, fun _ => hc⟩
        intro hmlt
        have hf : 1 ≤ f := by omega
        have := fetchGo_nreq_pos maxR resp (f - 1) (m + 1)
        have hf1 : f - 1 + 1 = f := by omega
        rw [hf1] at this
        simp only []
        omega
      | inr hmem =>
        have := ih (n + 1) (by omega) m hmem
        refine ⟨this.1, ?_, this.2.2⟩
        intro hmlt
        have := this.2.1 hmlt
        simp only []
        omega
    | exnCaught =>
      rw [hc] at hm
      by_cases hn : n < maxR
      · simp only [if_pos hn] at hm ⊢
        simp only [List.mem_cons] at hm
        cases hm with
        | inl hEq =>
          subst hEq
          refine ⟨hn_le, ?_, fun hEq2 => absurd hEq2 (by omega)⟩
          intro hmlt
          have hf : 1 ≤ f := by omega
          have := fetchGo_nreq_pos maxR resp (f - 1) (m + 1)
          have hf1 : f - 1 + 1 = f := by omega
          rw [hf1] at this
          omega
        | inr hmem =>
          have := ih (n + 1) (by omega) m hmem
          refine ⟨this.1, ?_, this.2.2⟩
          intro hmlt
          have := this.2.1 hmlt
          omega
      · simp [hn] at hm
    | passThrough =>
      rw [hc] at hm
      simp only [] at hm
      have := ih (n + 1) (by omega) m hm
      refine ⟨this.1, ?_, this.2.2⟩
      intro hmlt
      have := this.2.1 hmlt
      simp only []
      omega

/-- Claim C9: for every possible sequence of HTTP outcomes (exceptions
included), a series fetch — a total function of the model, so it always
terminates — issues at most `maxRetries` HTTP requests and always
returns a table whose columns are exactly `date` and `value`. -/
theorem fetch_bounded_and_typed (maxRetries series_id start finish : Nat)
    (resp : Nat → Attempt) :
    (fetchSgs maxRetries series_id start finish resp).nreq ≤ maxRetries ∧
    (fetchSgs maxRetries series_id start finish resp).cols = ["date", "value"] :=
  ⟨fetchGo_nreq_le maxRetries resp maxRetries 1, fetchGo_cols maxRetries resp maxRetries 1⟩

/-- Claim C5: when all retry attempts are consumed without success the
fetch returns an empty table without raising (it is a total function)
and prints the final error log, and the assembler run is exactly the run
in which that series contributes nothing — the other series are
processed unchanged. -/
theorem fetch_exhaustion_continues (maxRetries series_id start finish : Nat)
    (resp : Nat → Attempt) (fetched : SeriesDesc → List Obs) (s₀ : SeriesDesc) (ts : String)
    (h : (fetchSgs maxRetries series_id start finish resp).success = false) :
    (fetchSgs maxRetries series_id start finish resp).rows = [] ∧
    (fetchSgs maxRetries series_id start finish resp).loggedFinal = true ∧
    build_dataset (Function.update fetched s₀ (fetchSgs maxRetries series_id start finish resp).rows) ts
      = build_dataset (Function.update fetched s₀ []) ts := by
  unfold fetchSgs at h ⊢
  obtain ⟨h1, h2⟩ := fetchGo_fail maxRetries resp maxRetries 1 h
  exact ⟨h1, h2, by rw [h1]⟩

theorem fetch_exhaustion_continues_witness :
    (fetchSgs 2 11 20240101 20240131 respTransient).success = false ∧
    ((fetchSgs 2 11 20240101 20240131 respTransient).rows = [] ∧
     (fetchSgs 2 11 20240101 20240131 respTransient).loggedFinal = true ∧
     build_dataset (Function.update emptyFetched ⟨11, "selic", "Total", "D"⟩
         (fetchSgs 2 11 20240101 20240131 respTransient).rows) "2025-01-01T00:00:00"
       = build_dataset (Function.update emptyFetched ⟨11, "selic", "Total", "D"⟩ []) "2025-01-01T00:00:00") :=
  ⟨by decide,
   fetch_exhaustion_continues 2 11 20240101 20240131 respTransient emptyFetched
     ⟨11, "selic", "Total", "D"⟩ "2025-01-01T00:00:00" (by decide)⟩

/-- Claim C1 (code bug): with every attempt answered by HTTP 404 and a
non-empty JSON body, `fetch_sgs` does **not** abort after the first
attempt: `raise_for_status()`'s exception is caught by the enclosing
blanket `except`, so all 3 attempts are consumed (with a backoff sleep
after attempts 1 and 2), and the call returns an empty table instead of
raising. -/
theorem fetch_404_consumes_all_retries_no_raise :
    fetchSgs 3 11 20240101 20240131 resp404
      = ⟨[], ["date", "value"], 3, [1, 2], false, true⟩ := by decide

/-- Claim C3 (counterexample): with 2 attempts both failing on HTTP 503,
`_sleep_backoff` runs after attempt 1 **and** after attempt 2 — the
final attempt, which no retry follows (the fetch ends exhausted) — so a
backoff wait is performed after the final attempt, contrary to the
claim. -/
theorem backoff_after_final_attempt_cex :
    (fetchSgs 2 11 20240101 20240131 respTransient).sleeps = [1, 2] ∧
    2 ∈ (fetchSgs 2 11 20240101 20240131 respTransient).sleeps ∧
    (fetchSgs 2 11 20240101 20240131 respTransient).success = false := by decide

/-- Claim C3 (amended): every backoff wait for attempt `n` lasts
`min(2^(n-1), 20) + n*0.05` seconds; waits happen only for attempts
`n ≤ maxRetries`; a wait at `n < maxRetries` is indeed followed by a
retry (attempt `n+1` is issued); and a wait after the final attempt
`n = maxRetries` happens exactly in the transient-status/empty-body
branch (HTTP 429/500/502/503/504 or empty body), which sleeps without
checking whether attempts remain. -/
theorem backoff_policy_amended (maxRetries series_id start finish n : Nat)
    (resp : Nat → Attempt)
    (hmem : n ∈ (fetchSgs maxRetries series_id start finish resp).sleeps) :
    sleepBackoffWait n = min (2 ^ (n - 1)) 20 + (n : ℚ) * (5 / 100) ∧
    n ≤ maxRetries ∧
    (n < maxRetries → n + 1 ≤ (fetchSgs maxRetries series_id start finish resp).nreq) ∧
    (n = maxRetries → classify (resp n) = StepKind.transient) := by
  unfold fetchSgs at hmem ⊢
  have h := fetchGo_sleeps_spec maxRetries resp maxRetries 1 (by omega) n hmem
  refine ⟨rfl, h.1, ?_, h.2.2⟩
  intro hlt
  have := h.2.1 hlt
  omega

theorem backoff_policy_amended_witness :
    2 ∈ (fetchSgs 2 11 20240101 20240131 respTransient).sleeps ∧
    (sleepBackoffWait 2 = min (2 ^ (2 - 1)) 20 + ((2 : Nat) : ℚ) * (5 / 100) ∧
     2 ≤ 2 ∧
     (2 < 2 → 2 + 1 ≤ (fetchSgs 2 11 20240101 20240131 respTransient).nreq) ∧
     (2 = 2 → classify (respTransient 2) = StepKind.transient)) :=
  ⟨by decide, backoff_policy_amended 2 11 20240101 20240131 2 respTransient (by decide)⟩

theorem nonOkClassify_ne_success (status : Nat) (rows : List Obs) :
    nonOkClassify status ≠ StepKind.success rows := by
  unfold nonOkClassify
  split
  · simp
  · split <;> simp

theorem classify_success (a : Attempt) (rows : List Obs)
    (h : classify a = StepKind.success rows) :
    ∃ pay, a = Attempt.resp 200 (BodyKind.json pay) ∧ rows = processBody pay := by
  cases a with
  | exn => simp [classify] at h
  | resp status body =>
    cases body with
    | empty => simp [classify] at h
    | html =>
      simp only [classify] at h
      split at h
      · simp at h
      · exact absurd h (nonOkClassify_ne_success status rows)
    | notJson =>
      simp only [classify] at h
      split at h
      · simp at h
      · exact absurd h (nonOkClassify_ne_success status rows)
    | json pay =>
      simp only [classify] at h
      split at h
      next h200 =>
        split at h
        · simp at h
        · subst h200
          refine ⟨pay, rfl, ?_⟩
          cases h
          rfl
      next => exact absurd h (nonOkClassify_ne_success status rows)

theorem fetchGo_rows_source (maxR : Nat) (resp : Nat → Attempt) :
    ∀ fuel n, (fetchGo maxR resp n fuel).rows = [] ∨
      ∃ n' pay, resp n' = Attempt.resp 200 (BodyKind.json pay) ∧
        (fetchGo maxR resp n fuel).rows = processBody pay := by
  intro fuel
  induction fuel with
  | zero => intro n; exact Or.inl rfl
  | succ f ih =>
    intro n
    unfold fetchGo
    cases hc : classify (resp n) with
    | success rows =>
      obtain ⟨pay, hPay, hRows⟩ := classify_success (resp n) rows hc
      exact Or.inr ⟨n, pay, hPay, hRows⟩
    | transient => simpa using ih (n + 1)
    | exnCaught =>
      by_cases hn : n < maxR
      · simp only [if_pos hn]
        simpa using ih (n + 1)
      · simp [hn]
    | passThrough => simpa using ih (n + 1)

theorem processBody_dates_sorted (pay : List RawRow) :
    List.Sorted (fun a b => a ≤ b) ((processBody pay).map Prod.fst) :=
  List.Pairwise.map Prod.fst (fun _ _ h => h)
    (List.sorted_insertionSort obsLe (parsedObs pay))

theorem processBody_perm (pay : List RawRow) :
    (processBody pay).Perm (parsedObs pay) :=
  List.perm_insertionSort obsLe (parsedObs pay)

/-- Claim C6 (counterexample): a fetch that succeeds on a payload with a
duplicated date and a date before the requested window returns those
dates unchanged: `fetch_sgs` performs no range filtering and no
deduplication, and its sort is non-strict.  The returned dates are
`[20240101, 20240115, 20240115]` for the window `[20240110, 20240120]`:
not strictly ascending, and not all within the window. -/
theorem fetch_dates_cex :
    (fetchSgs 10 11 20240110 20240120 respDup).success = true ∧
    (fetchSgs 10 11 20240110 20240120 respDup).rows.map Prod.fst
      = [20240101, 20240115, 20240115] ∧
    ¬ List.Sorted (fun a b => a < b)
        ((fetchSgs 10 11 20240110 20240120 respDup).rows.map Prod.fst) ∧
    20240101 ∈ (fetchSgs 10 11 20240110 20240120 respDup).rows.map Prod.fst ∧
    ¬ 20240110 ≤ 20240101 := by decide

/-- Claim C6 (amended): the dates returned by a fetch are always sorted
(non-strictly) ascending; and whenever every 200-JSON payload the
upstream can serve has pairwise-distinct parsed dates lying within
`[start, finish]`, the returned dates are strictly ascending with no
duplicates and all lie within `[start, finish]`.  (The fetcher itself
neither deduplicates nor filters by range.) -/
theorem fetch_dates_sorted_amended (maxRetries series_id start finish : Nat)
    (resp : Nat → Attempt)
    (hpay : ∀ n pay, resp n = Attempt.resp 200 (BodyKind.json pay) →
      ((parsedObs pay).map Prod.fst).Nodup ∧
      ∀ d ∈ (parsedObs pay).map Prod.fst, start ≤ d ∧ d ≤ finish) :
    List.Sorted (fun a b => a < b)
      ((fetchSgs maxRetries series_id start finish resp).rows.map Prod.fst) ∧
    ∀ d ∈ (fetchSgs maxRetries series_id start finish resp).rows.map Prod.fst,
      start ≤ d ∧ d ≤ finish := by
  unfold fetchSgs
  rcases fetchGo_rows_source maxRetries resp maxRetries 1 with h | ⟨n', pay, hr, h⟩
  · rw [h]
    exact ⟨List.sorted_nil, by simp⟩
  · rw [h]
    obtain ⟨hnd, hrange⟩ := hpay n' pay hr
    have hperm : ((processBody pay).map Prod.fst).Perm ((parsedObs pay).map Prod.fst) :=
      (processBody_perm pay).map Prod.fst
    constructor
    · exact (processBody_dates_sorted pay).lt_of_le (hperm.nodup_iff.mpr hnd)
    · intro d hd
      exact hrange d (hperm.mem_iff.mp hd)

theorem fetch_dates_sorted_amended_witness :
    List.Sorted (fun a b => a < b)
      ((fetchSgs 10 11 20240110 20240120 respGood).rows.map Prod.fst) ∧
    ∀ d ∈ (fetchSgs 10 11 20240110 20240120 respGood).rows.map Prod.fst,
      20240110 ≤ d ∧ d ≤ 20240120 :=
  fetch_dates_sorted_amended 10 11 20240110 20240120 respGood (by
    intro n pay h
    simp only [respGood] at h
    cases h
    decide)

theorem digit_ne_of_not_digit {c d : Char} (hc : c.isDigit = true)
    (hd : d.isDigit = false) : c ≠ d := by
  intro h
  rw [h] at hc
  rw [hc] at hd
  cases hd

theorem all_digits_ne {l : List Char} (h : l.all Char.isDigit = true)
    {d : Char} (hd : d.isDigit = false) : ∀ c ∈ l, c ≠ d := by
  intro c hc
  exact digit_ne_of_not_digit (by simpa using (List.all_eq_true.mp h c hc)) hd

theorem replaceComma_digits (l : List Char) (h : l.all Char.isDigit = true) :
    replaceComma l = l := by
  induction l with
  | nil => rfl
  | cons c cs ih =>
    simp only [List.all_cons, Bool.and_eq_true] at h
    simp only [replaceComma, List.map_cons]
    rw [if_neg (digit_ne_of_not_digit h.1 (by decide))]
    exact congrArg (c :: ·) (ih h.2)

theorem splitOnChar_ne_nil (sep : Char) (l : List Char) : splitOnChar sep l ≠ [] := by
  cases l with
  | nil => simp [splitOnChar]
  | cons c rest =>
    simp only [splitOnChar]
    rcases hb : splitOnChar sep rest with _ | ⟨cur, rs⟩
    · simp
    · by_cases hc : c = sep <;> simp [hc]

theorem splitOnChar_no_sep (sep : Char) (l : List Char) (h : ∀ c ∈ l, c ≠ sep) :
    splitOnChar sep l = [l] := by
  induction l with
  | nil => rfl
  | cons c cs ih =>
    have hcs := ih (fun x hx => h x (List.mem_cons_of_mem c hx))
    have hc := h c (List.mem_cons_self c cs)
    simp [splitOnChar, hcs, hc]

theorem splitOnChar_append (sep : Char) (a b : List Char) (h : ∀ c ∈ a, c ≠ sep) :
    splitOnChar sep (a ++ sep :: b) = a :: splitOnChar sep b := by
  induction a with
  | nil =>
    simp only [List.nil_append]
    rcases hb : splitOnChar sep b with _ | ⟨cur, rs⟩
    · exact absurd hb (splitOnChar_ne_nil sep b)
    · simp [splitOnChar, hb]
  | cons c cs ih =>
    have hcs := ih (fun x hx => h x (List.mem_cons_of_mem c hx))
    have hc := h c (List.mem_cons_self c cs)
    simp [splitOnChar, List.cons_append, hcs, hc]

theorem digToNat_digits (l : List Char) (h1 : l ≠ []) (h2 : l.all Char.isDigit = true) :
    digToNat l = some (digitsVal l) := by
  cases l with
  | nil => exact absurd rfl h1
  | cons c cs => simp [digToNat, h2]

theorem replaceComma_append (l1 l2 : List Char) :
    replaceComma (l1 ++ l2) = replaceComma l1 ++ replaceComma l2 := by
  simp [replaceComma]

theorem cons_ne_of_digit_head {c : Char} (l : List Char) (hc : c.isDigit = true)
    {d : Char} (rest : List Char) (hd : d.isDigit = false) : (c :: l) ≠ (d :: rest) := by
  intro h
  injection h with h1 _
  exact digit_ne_of_not_digit hc hd h1

theorem comma_parse (c : Char) (cs b : List Char)
    (ha : (c :: cs).all Char.isDigit = true)
    (hb' : b ≠ []) (hb : b.all Char.isDigit = true) :
    toNumeric (cleanChars ((c :: cs) ++ ',' :: b))
      = CellVal.num ⟨(digitsVal (c :: cs) : Int) * 10 ^ b.length + (digitsVal b : Int),
          b.length⟩ := by
  have hc : c.isDigit = true := by
    simp only [List.all_cons, Bool.and_eq_true] at ha
    exact ha.1
  have h1 : replaceComma ((c :: cs) ++ ',' :: b) = (c :: cs) ++ '.' :: b := by
    rw [replaceComma_append, replaceComma_digits (c :: cs) ha]
    show (c :: cs) ++ (if (',' : Char) = ',' then '.' else ',') :: replaceComma b
        = (c :: cs) ++ '.' :: b
    rw [if_pos rfl, replaceComma_digits b hb]
  have hne : ((c :: cs) ++ '.' :: b) ≠ "None".data := by
    rw [show "None".data = 'N' :: ['o', 'n', 'e'] from rfl]
    exact cons_ne_of_digit_head _ hc _ (by decide)
  have h2 : cleanChars ((c :: cs) ++ ',' :: b) = (c :: cs) ++ '.' :: b := by
    simp only [cleanChars, h1]
    rw [if_neg hne]
  rw [h2]
  have hinf : ((c :: cs) ++ '.' :: b) ≠ "inf".data := by
    rw [show "inf".data = 'i' :: ['n', 'f'] from rfl]
    exact cons_ne_of_digit_head _ hc _ (by decide)
  have hninf : ((c :: cs) ++ '.' :: b) ≠ "-inf".data := by
    rw [show "-inf".data = '-' :: ['i', 'n', 'f'] from rfl]
    exact cons_ne_of_digit_head _ hc _ (by decide)
  have hsplit : splitOnChar '.' ((c :: cs) ++ '.' :: b) = [c :: cs, b] := by
    rw [splitOnChar_append '.' (c :: cs) b (all_digits_ne ha (by decide))]
    rw [splitOnChar_no_sep '.' b (all_digits_ne hb (by decide))]
  have hpu : parseUnsigned ((c :: cs) ++ '.' :: b)
      = some ⟨(digitsVal (c :: cs) : Int) * 10 ^ b.length + (digitsVal b : Int), b.length⟩ := by
    cases b with
    | nil => exact absurd rfl hb'
    | cons d ds =>
      simp only [parseUnsigned, hsplit]
      simp only [List.isEmpty_cons, Bool.false_eq_true, if_false]
      rw [digToNat_digits (c :: cs) (by simp) ha]
      rw [digToNat_digits (d :: ds) (by simp) hb]
  have hps : parseSigned ((c :: cs) ++ '.' :: b)
      = parseUnsigned ((c :: cs) ++ '.' :: b) := by
    show parseSigned (c :: (cs ++ '.' :: b)) = parseUnsigned (c :: (cs ++ '.' :: b))
    simp only [parseSigned]
    rw [if_neg (digit_ne_of_not_digit hc (by decide)),
      if_neg (digit_ne_of_not_digit hc (by decide))]
  simp only [toNumeric]
  rw [if_neg hinf, if_neg hninf, hps, hpu]

theorem filterMap_filter_isSome {α β : Type} (f : α → Option β) (l : List α) :
    (l.filter (fun x => (f x).isSome)).filterMap f = l.filterMap f := by
  induction l with
  | nil => rfl
  | cons x xs ih =>
    cases hf : f x with
    | none => simp [List.filter_cons, List.filterMap_cons, hf, ih]
    | some y => simp [List.filter_cons, List.filterMap_cons, hf, ih]

/-- Claim C4 (counterexample): in the payload `payBadValue`, the first
row's date parses fine and its value coerces to null — but the fetch
output contains no observation at that date at all (null or otherwise):
`dropna(subset=["date", "value"])` drops the whole row, so an
unparseable value does **not** become a null in the returned
observation. -/
theorem unparseable_value_row_dropped_cex :
    parseDateBR "05/01/2024" = some 20240105 ∧
    valueOfValor "abc" = CellVal.null ∧
    processBody payBadValue = [(20240106, CellVal.num ⟨15, 1⟩)] := by decide

/-- Claim C4 (amended): a comma-decimal digit string parses to exactly the
decimal it denotes (e.g. `"13,75"` to `1375/100`), and parsing never
fails the batch — but a row whose value coerces to null is then dropped
from the output (exactly like a row whose date fails to parse): keeping
only the rows with a parsed date and non-null value changes nothing. -/
theorem value_parsing_amended (c : Char) (cs b : List Char) (s : String)
    (pay : List RawRow)
    (hs : s.data = (c :: cs) ++ ',' :: b)
    (ha : (c :: cs).all Char.isDigit = true)
    (hb' : b ≠ []) (hb : b.all Char.isDigit = true) :
    valueOfValor s
      = CellVal.num ⟨(digitsVal (c :: cs) : Int) * 10 ^ b.length + (digitsVal b : Int),
          b.length⟩ ∧
    Dec10.toRat ⟨(digitsVal (c :: cs) : Int) * 10 ^ b.length + (digitsVal b : Int), b.length⟩
      = (digitsVal (c :: cs) : ℚ) + (digitsVal b : ℚ) / 10 ^ b.length ∧
    processBody (pay.filter (fun r => (parseRow r).isSome)) = processBody pay := by
  refine ⟨?_, ?_, ?_⟩
  · unfold valueOfValor
    rw [hs]
    exact comma_parse c cs b ha hb' hb
  · unfold Dec10.toRat
    have h10 : ((10 : ℚ) ^ b.length) ≠ 0 := by positivity
    push_cast
    field_simp
  · unfold processBody parsedObs
    rw [filterMap_filter_isSome parseRow pay]

theorem value_parsing_amended_witness :
    valueOfValor "13,75" = CellVal.num ⟨1375, 2⟩ ∧
    Dec10.toRat ⟨1375, 2⟩ = 1375 / 100 ∧
    processBody (payBadValue.filter (fun r => (parseRow r).isSome))
      = processBody payBadValue := by
  obtain ⟨h1, h2, h3⟩ :=
    value_parsing_amended '1' ['3'] ['7', '5'] "13,75" payBadValue rfl
      (by decide) (by decide) (by decide)
  refine ⟨h1, ?_, h3⟩
  · norm_num [Dec10.toRat]

theorem rowKey_sanitizeRow (r : Row) : rowKey (sanitizeRow r).toRowCore = rowKey r.toRowCore := rfl

/-- Claim C7: the assembled dataset is always sorted ascending by
`(metric, segment, date)`, and no row's value is a positive or negative
infinity — the sanitization step has replaced every non-finite value
with null before output. -/
theorem dataset_sorted_no_nonfinite (fetched : SeriesDesc → List Obs) (ingestedAt : String) :
    List.Sorted rowLe (build_dataset fetched ingestedAt).rows ∧
    ∀ r ∈ (build_dataset fetched ingestedAt).rows,
      r.value ≠ CellVal.pinf ∧ r.value ≠ CellVal.ninf := by
  constructor
  · refine List.Pairwise.map sanitizeRow ?_
      (List.sorted_insertionSort rowLe ((buildCore fetched).map (fun rc => Row.mk rc ingestedAt)))
    intro a b hab
    show rowKey (sanitizeRow a).toRowCore ≤ rowKey (sanitizeRow b).toRowCore
    rw [rowKey_sanitizeRow, rowKey_sanitizeRow]
    exact hab
  · intro r hr
    simp only [build_dataset, List.mem_map] at hr
    obtain ⟨x, _, rfl⟩ := hr
    cases hx : x.value <;> simp [sanitizeRow, sanitizeVal, hx]

theorem build_dataset_rows_core (fetched : SeriesDesc → List Obs) (ts : String) :
    (build_dataset fetched ts).rows.map Row.toRowCore
      = (List.insertionSort rowCoreLe (buildCore fetched)).map sanitizeCore := by
  simp only [build_dataset]
  rw [List.map_map]
  have hcomp : Row.toRowCore ∘ sanitizeRow = sanitizeCore ∘ Row.toRowCore :=
    funext fun r => rfl
  rw [hcomp, ← List.map_map]
  rw [List.map_insertionSort rowLe rowCoreLe Row.toRowCore _ (fun a _ b _ => Iff.rfl)]
  rw [List.map_map]
  have hid : (Row.toRowCore ∘ fun rc => Row.mk rc ts) = id := funext fun rc => rfl
  rw [hid, List.map_id]

/-- Claim C8: the pipeline is deterministic in the upstream responses up
to the ingestion timestamp: two assembler runs over the same per-series
HTTP outcomes, differing only in the run timestamp, produce tables with
identical headers and identical rows once the `ingested_at` column is
projected away. -/
theorem pipeline_deterministic (maxRetries finish : Nat) (startOf : SeriesDesc → Nat)
    (resp : SeriesDesc → Nat → Attempt) (ts ts' : String) :
    (build_dataset
        (fun sd => (fetchSgs maxRetries sd.series_id (startOf sd) finish (resp sd)).rows)
        ts).rows.map Row.toRowCore
      = (build_dataset
          (fun sd => (fetchSgs maxRetries sd.series_id (startOf sd) finish (resp sd)).rows)
          ts').rows.map Row.toRowCore ∧
    (build_dataset
        (fun sd => (fetchSgs maxRetries sd.series_id (startOf sd) finish (resp sd)).rows)
        ts).header
      = (build_dataset
          (fun sd => (fetchSgs maxRetries sd.series_id (startOf sd) finish (resp sd)).rows)
          ts').header := by
  constructor
  · rw [build_dataset_rows_core, build_dataset_rows_core]
  · rfl

theorem buildCore_nil (fetched : SeriesDesc → List Obs) :
    ∀ (ls : List SeriesDesc), (∀ s ∈ ls, fetched s = []) →
      ((ls.map fun s => tagRows s (fetched s)).flatten) = [] := by
  intro ls
  induction ls with
  | nil => intro _; rfl
  | cons x xs ih =>
    intro hls
    simp only [List.map_cons, List.flatten_cons]
    rw [hls x (List.mem_cons_self x xs)]
    rw [show tagRows x [] = [] from rfl, List.nil_append]
    exact ih (fun s hs => hls s (List.mem_cons_of_mem x hs))

/-- Claim C10: when every configured series comes back empty after
retries, the assembled table still carries exactly the seven columns in
their fixed order with zero data rows, and the sheet write still clears
the previous contents and produces the header row alone. -/
theorem all_series_empty_header_only (fetched : SeriesDesc → List Obs) (ts : String)
    (prev : List (List Cell)) (h : ∀ s ∈ SERIES, fetched s = []) :
    build_dataset fetched ts
      = ⟨["date", "metric", "segment", "series_id", "value", "freq", "ingested_at"], []⟩ ∧
    sheetAfterWrite prev (build_dataset fetched ts)
      = [[Cell.str "date", Cell.str "metric", Cell.str "segment", Cell.str "series_id",
          Cell.str "value", Cell.str "freq", Cell.str "ingested_at"]] := by
  have h1 : build_dataset fetched ts
      = ⟨["date", "metric", "segment", "series_id", "value", "freq", "ingested_at"], []⟩ := by
    unfold build_dataset buildCore
    rw [buildCore_nil fetched SERIES h]
    rfl
  exact ⟨h1, by rw [h1]; rfl⟩

theorem all_series_empty_header_only_witness :
    build_dataset emptyFetched "2025-01-01T00:00:00"
      = ⟨["date", "metric", "segment", "series_id", "value", "freq", "ingested_at"], []⟩ ∧
    sheetAfterWrite prevSheet (build_dataset emptyFetched "2025-01-01T00:00:00")
      = [[Cell.str "date", Cell.str "metric", Cell.str "segment", Cell.str "series_id",
          Cell.str "value", Cell.str "freq", Cell.str "ingested_at"]] :=
  all_series_empty_header_only emptyFetched "2025-01-01T00:00:00" prevSheet (fun _ _ => rfl)

theorem sorted_filter_le_eq_takeWhile {α : Type} (b : Nat) (obs : List (Nat × α))
    (h : datesMono obs) :
    obs.filter (fun o => o.1 ≤ b) = obs.takeWhile (fun o => o.1 ≤ b) := by
  induction obs with
  | nil => rfl
  | cons o rest ih =>
    obtain ⟨h1, h2⟩ := List.pairwise_cons.mp h
    by_cases ho : o.1 ≤ b
    · simp only [List.filter_cons, List.takeWhile_cons, ho]
      simp [ih h2]
    · simp only [List.filter_cons, List.takeWhile_cons, ho]
      simp only [decide_eq_true_eq] at *
      simp only [if_false]
      exact List.filter_eq_nil_iff.mpr fun x hx => by
        simp only [decide_eq_true_eq]
        intro hxb
        exact ho (le_trans (h1 x hx) hxb)

theorem advanceCarry_fst {α : Type} (obs : List (Nat × α)) :
    ∀ (c : Option α) (b : Nat), datesMono obs →
      (advanceCarry c obs b).1 = mraC c obs b := by
  induction obs with
  | nil => intro c b _; rfl
  | cons o rest ih =>
    intro c b h
    obtain ⟨h1, h2⟩ := List.pairwise_cons.mp h
    by_cases ho : o.1 ≤ b
    · simp only [advanceCarry, if_pos ho]
      rw [ih (some o.2) b h2]
      unfold mraC
      simp only [List.filter_cons, decide_eq_true_eq, ho, if_pos]
      cases hf : rest.filter (fun o => decide (o.1 ≤ b)) with
      | nil => simp [hf]
      | cons x xs =>
        simp only [hf, List.getLast?_cons_cons]
        cases hg : (x :: xs).getLast? with
        | none => simp at hg
        | some y => rfl
    · simp only [advanceCarry, if_neg ho]
      unfold mraC
      have hfnil : (o :: rest).filter (fun o => decide (o.1 ≤ b)) = [] := by
        refine List.filter_eq_nil_iff.mpr fun x hx => ?_
        simp only [decide_eq_true_eq]
        rcases List.mem_cons.mp hx with rfl | hx'
        · exact ho
        · intro hxb
          exact ho (le_trans (h1 x hx') hxb)
      rw [hfnil]
      rfl

theorem advanceCarry_snd {α : Type} (obs : List (Nat × α)) :
    ∀ (c : Option α) (b : Nat),
      (advanceCarry c obs b).2 = obs.dropWhile (fun o => o.1 ≤ b) := by
  induction obs with
  | nil => intro c b; rfl
  | cons o rest ih =>
    intro c b
    by_cases ho : o.1 ≤ b
    · simp only [advanceCarry, if_pos ho, List.dropWhile_cons, decide_eq_true_eq, ho, if_pos]
      exact ih (some o.2) b
    · simp only [advanceCarry, if_neg ho, List.dropWhile_cons, decide_eq_true_eq, ho]
      simp [ho]

theorem mraC_step {α : Type} (c : Option α) (obs : List (Nat × α)) (b b' : Nat)
    (h : datesMono obs) (hbb : b ≤ b') :
    mraC (mraC c obs b) (obs.dropWhile (fun o => o.1 ≤ b)) b' = mraC c obs b' := by
  have hsplit := List.takeWhile_append_dropWhile (p := fun o => decide (o.1 ≤ b)) (l := obs)
  have htk : ∀ x ∈ obs.takeWhile (fun o => decide (o.1 ≤ b)), (decide (x.1 ≤ b') = true) := by
    intro x hx
    have := List.mem_takeWhile_imp hx
    simp only [decide_eq_true_eq] at this ⊢
    exact le_trans this hbb
  have hfb : obs.filter (fun o => decide (o.1 ≤ b))
      = obs.takeWhile (fun o => decide (o.1 ≤ b)) := sorted_filter_le_eq_takeWhile b obs h
  have hfb' : obs.filter (fun o => decide (o.1 ≤ b'))
      = obs.takeWhile (fun o => decide (o.1 ≤ b))
        ++ (obs.dropWhile (fun o => decide (o.1 ≤ b))).filter (fun o => decide (o.1 ≤ b')) := by
    conv_lhs => rw [← hsplit]
    rw [List.filter_append]
    rw [List.filter_eq_self.mpr htk]
  unfold mraC
  rw [hfb', hfb]
  cases hfd : (obs.dropWhile (fun o => decide (o.1 ≤ b))).filter (fun o => decide (o.1 ≤ b')) with
  | nil => simp
  | cons x xs =>
    rw [List.getLast?_append_of_ne_nil _ (by simp)]
    cases hg : (x :: xs).getLast? with
    | none => simp at hg
    | some y => rfl

theorem ffillGo_eq {α : Type} (bs : List Nat) :
    ∀ (obs : List (Nat × α)) (c : Option α), datesMono obs →
      List.Sorted (fun a b => a ≤ b) bs →
      ffillGo c obs bs = bs.map (fun b => (b, mraC c obs b)) := by
  induction bs with
  | nil => intro obs c _ _; rfl
  | cons b bs' ih =>
    intro obs c hobs hbs
    have hfst := advanceCarry_fst obs c b hobs
    have hsnd := advanceCarry_snd obs c b
    have hdropmono : datesMono (obs.dropWhile (fun o => o.1 ≤ b)) :=
      List.Pairwise.sublist (List.dropWhile_sublist _) hobs
    simp only [ffillGo, List.map_cons]
    rw [hfst, hsnd]
    rw [ih _ _ hdropmono hbs.of_cons]
    refine congrArg ((b, mraC c obs b) :: ·) (List.map_congr_left fun b' hb' => ?_)
    rw [mraC_step c obs b b' hobs (List.rel_of_sorted_cons hbs b' hb')]

theorem mraC_none {α : Type} (obs : List (Nat × α)) (b : Nat) :
    mraC none obs b = mostRecentAtOrBefore obs b := by
  unfold mraC mostRecentAtOrBefore
  cases (obs.filter (fun o => decide (o.1 ≤ b))).getLast? with
  | none => rfl
  | some y => rfl

theorem mostRecentAtOrBefore_none {α : Type} (obs : List (Nat × α)) (b : Nat)
    (h : ∀ o ∈ obs, b < o.1) : mostRecentAtOrBefore obs b = none := by
  unfold mostRecentAtOrBefore
  rw [List.filter_eq_nil_iff.mpr fun x hx => by
    simp only [decide_eq_true_eq]
    exact fun hxb => absurd (h x hx) (by omega)]
  rfl

theorem firstOfMonth_lt_of_lt {m m' : Nat} (h : m < m') :
    firstOfMonth m < firstOfMonth m' := by
  unfold firstOfMonth
  omega

theorem calendarBoundaries_pairwise (f e : Nat) :
    List.Pairwise (fun a b => a < b) (calendarBoundaries f e) := by
  unfold calendarBoundaries
  refine List.Pairwise.map firstOfMonth (fun a b hab => firstOfMonth_lt_of_lt hab) ?_
  exact List.pairwise_lt_range' _ _

/-- Claim C2 (spec-modelled): for a sorted event-based series, the
forward-fill scan `normalizeCalendar` produces exactly one row per
month-start boundary spanning the first observation's month through the
end date's month (the boundaries are pairwise distinct), each boundary
carrying the most recent observation value at or before it, and a
boundary that precedes every observation carries `none` — never a
back-filled value. -/
theorem calendar_normalizer_spec {α : Type} (o : Nat × α) (rest : List (Nat × α))
    (endD : Nat) (hmono : datesMono (o :: rest)) :
    normalizeCalendar (o :: rest) endD
      = (calendarBoundaries o.1 endD).map
          (fun b => (b, mostRecentAtOrBefore (o :: rest) b)) ∧
    List.Pairwise (fun a b => a < b) (calendarBoundaries o.1 endD) ∧
    ∀ p ∈ normalizeCalendar (o :: rest) endD,
      (∀ o' ∈ o :: rest, p.1 < o'.1) → p.2 = none := by
  have hsorted : List.Sorted (fun a b => a ≤ b) (calendarBoundaries o.1 endD) :=
    (calendarBoundaries_pairwise o.1 endD).imp le_of_lt
  have h1 : normalizeCalendar (o :: rest) endD
      = (calendarBoundaries o.1 endD).map
          (fun b => (b, mostRecentAtOrBefore (o :: rest) b)) := by
    show ffillGo none (o :: rest) (calendarBoundaries o.1 endD) = _
    rw [ffillGo_eq (calendarBoundaries o.1 endD) (o :: rest) none hmono hsorted]
    exact List.map_congr_left fun b _ => by rw [mraC_none]
  refine ⟨h1, calendarBoundaries_pairwise o.1 endD, ?_⟩
  intro p hp hall
  rw [h1] at hp
  obtain ⟨b, _, rfl⟩ := List.mem_map.mp hp
  exact mostRecentAtOrBefore_none (o :: rest) b hall

theorem calendar_normalizer_spec_witness :
    normalizeCalendar obsEvent 20240315
      = (calendarBoundaries 20240115 20240315).map
          (fun b => (b, mostRecentAtOrBefore obsEvent b)) ∧
    List.Pairwise (fun a b => a < b) (calendarBoundaries 20240115 20240315) ∧
    ∀ p ∈ normalizeCalendar obsEvent 20240315,
      (∀ o' ∈ obsEvent, p.1 < o'.1) → p.2 = none :=
  calendar_normalizer_spec (20240115, 7) [] 20240315 (by decide)
